import Mathlib

/-!
Verification of the filamentous-network extraction engine of the
`acquisition_champi` repository (files `net_utilities.py` and
`Vectorisation.py`), shallowly embedded in Lean 4.

Conventions of the embedding:
* Python floats are modelled by `ℚ` (the merge rules of interest are exact
  field arithmetic).
* A `networkx.Graph` is modelled by its ordered node list (Python 3.7 dicts
  preserve insertion order) together with an association list from unordered
  node pairs to edge attributes (`weight`, `conductivity`).  An edge between
  `a` and `b` is stored once, under either orientation; lookups test both.
* Python exceptions (`KeyError` from `nodelist[1]`, the unassigned
  `longuest_index` in `createContours`) are modelled by `Except`/`Option`.
-/

/-- Edge attribute record: `weight` (length) and `conductivity` (thickness),
as stored by `createGraph` and updated by `removeRedundantNodes`. -/
structure EdgeAttr where
  weight : ℚ
  conductivity : ℚ
deriving DecidableEq, Repr

/-- Edge store of a graph: association list from an (oriented) key pair to
the attributes; the pair stands for the undirected edge. -/
abbrev Edges := List ((ℕ × ℕ) × EdgeAttr)

/-- Does the stored key `e.1` denote the undirected edge `{a, b}`? -/
def edgeMatches (a b : ℕ) (e : (ℕ × ℕ) × EdgeAttr) : Bool :=
  decide (e.1 = (a, b) ∨ e.1 = (b, a))

/-- Attribute lookup `G.edges[a, b]`, `none` when the edge is absent. -/
def lookupEdge (es : Edges) (a b : ℕ) : Option EdgeAttr :=
  (es.find? (edgeMatches a b)).map Prod.snd

/-- Model of `G.add_edge(a, b, weight=…, conductivity=…)`: overwrite the
attributes of an existing `{a, b}` edge in place, else append the edge. -/
def setEdge (es : Edges) (a b : ℕ) (attr : EdgeAttr) : Edges :=
  match es with
  | [] => [((a, b), attr)]
  | e :: rest =>
      if edgeMatches a b e then (e.1, attr) :: rest
      else e :: setEdge rest a b attr

/-- Attributed undirected graph: node list in insertion order plus the edge
store.  (Node coordinate/conductivity attributes play no role in the claims
about `removeRedundantNodes` and are omitted from the state.) -/
structure Graph where
  nodes : List ℕ
  edges : Edges
deriving DecidableEq, Repr

/-- Number of nodes, `G.order()`. -/
def Graph.order (G : Graph) : ℕ := G.nodes.length

/-- Neighbor list `list(G.neighbors(v))`: the nodes adjacent to `v` in the
current edge store (listed in node order). -/
def neighbors (nodes : List ℕ) (es : Edges) (v : ℕ) : List ℕ :=
  nodes.filter (fun u => (lookupEdge es v u).isSome)

/-- Body of the scan loop of `removeRedundantNodes` for one node `v`
(`net_utilities.py` lines 386-403).  The state is the current edge store
together with `nodelist` (the dict of nodes marked for removal, kept in
insertion order).  When `v` has exactly two neighbors the two incident edges
are merged onto the direct `n1`–`n2` edge: new weight `w1 + w2` clamped to
`1` when it is exactly `0`, new conductivity `(c1*w1 + c2*w2)` divided by
that clamped length; `v` is marked for removal unless one of its neighbors
is already marked. -/
def processNode (nodes : List ℕ) (st : Edges × List ℕ) (v : ℕ) :
    Edges × List ℕ :=
  match neighbors nodes st.1 v with
  | [n1, n2] =>
    match lookupEdge st.1 v n1, lookupEdge st.1 v n2 with
    | some e1, some e2 =>
        let length : ℚ :=
          if e1.weight + e2.weight = 0 then 1 else e1.weight + e2.weight
        let radius : ℚ :=
          (e1.conductivity * e1.weight + e2.conductivity * e2.weight) / length
        let es' := setEdge st.1 n1 n2 ⟨length, radius⟩
        let nl' := if n1 ∉ st.2 ∧ n2 ∉ st.2 then st.2 ++ [v] else st.2
        (es', nl')
    | _, _ => st
  | _ => st

/-- One full scan over `G.nodes()` (the `for node in G.nodes()` loop),
returning the updated edge store and the removal list. -/
def collapseScan (nodes : List ℕ) (es : Edges) : Edges × List ℕ :=
  nodes.foldl (processNode nodes) (es, [])

/-- Model of `G.remove_node(v)`: drop the node and every incident edge. -/
def removeNode (G : Graph) (v : ℕ) : Graph :=
  ⟨G.nodes.filter (fun u => u ≠ v),
   G.edges.filter (fun e => e.1.1 ≠ v ∧ e.1.2 ≠ v)⟩

/-- One collapse pass of `removeRedundantNodes` (`net_utilities.py` lines
385-414): the scan followed by the removal phase.  The degenerate guard
(`len(nodelist) == len(list(G.nodes()))-1`, an `int` comparison, hence the
`ℤ` cast) executes `G.remove_node(nodelist[1])` — a dict lookup of key `1`,
which raises `KeyError` (modelled by `none`) whenever node `1` is not in
`nodelist`.  Otherwise every node of `nodelist` is removed. -/
def collapsePass (G : Graph) : Option Graph :=
  let scanned := collapseScan G.nodes G.edges
  if ((scanned.2.length : ℤ) = (G.nodes.length : ℤ) - 1) then
    if 1 ∈ scanned.2 then some (removeNode ⟨G.nodes, scanned.1⟩ 1) else none
  else
    some (scanned.2.foldl removeNode ⟨G.nodes, scanned.1⟩)

/-- Error outcomes of `removeRedundantNodes`: the `KeyError` raised by
`nodelist[1]`, or exhaustion of the (sufficient) fuel bound of the loop
model. -/
inductive RErr where
  | keyErr : RErr
  | fuelOut : RErr
deriving DecidableEq, Repr

/-- The `while True` loop of `removeRedundantNodes` (`net_utilities.py`
lines 376-422), with the loop counter `i` and the `order`/`new_order`
bookkeeping exactly as in the source: mode 1 breaks at the top once `i > 2`,
mode 0 breaks at the top once `new_order == order`, mode 2 breaks at once;
otherwise a pass runs, `order` takes the previous `new_order`, `new_order`
takes the new node count, `i` is incremented, and the loop breaks at the
bottom when `order == new_order`.  Returns the graph and the number of
passes executed. -/
def rrnAux : ℕ → Graph → ℕ → ℕ → ℕ → ℕ → Except RErr (Graph × ℕ)
  | 0, _, _, _, _, _ => .error .fuelOut
  | fuel + 1, G, mode, order, newOrder, i =>
    if mode = 1 ∧ i > 2 then .ok (G, i)
    else if mode = 0 ∧ newOrder = order then .ok (G, i)
    else if mode = 2 then .ok (G, i)
    else
      match collapsePass G with
      | none => .error .keyErr
      | some G' =>
          if newOrder = G'.order then .ok (G', i + 1)
          else rrnAux fuel G' mode newOrder G'.order (i + 1)

/-- Entry point of `removeRedundantNodes G verbose mode` (verbosity only
prints and is dropped): `order` starts at `G.order()`, `new_order` at `0`,
`i` at `0`.  The fuel `G.order + 2` exceeds the number of loop iterations
the source can perform (each non-final pass removes at least one node). -/
def removeRedundantNodes (G : Graph) (mode : ℕ) : Except RErr (Graph × ℕ) :=
  rrnAux (G.order + 2) G mode G.order 0 0

/-- A graph has no redundant node when no node has degree exactly `2`. -/
def noDeg2 (G : Graph) : Prop :=
  ∀ v ∈ G.nodes, (neighbors G.nodes G.edges v).length ≠ 2

/-- Looking up the edge just written by `setEdge` returns its attributes. -/
theorem lookupEdge_setEdge_self (es : Edges) (a b : ℕ) (attr : EdgeAttr) :
    lookupEdge (setEdge es a b attr) a b = some attr := by
  induction es with
  | nil => simp [setEdge, lookupEdge, List.find?, edgeMatches]
  | cons e rest ih =>
      by_cases h : edgeMatches a b e
      · simp only [setEdge, if_pos h, lookupEdge, List.find?]
        have h' : edgeMatches a b (e.1, attr) = true := by
          simpa [edgeMatches] using h
        simp [h']
      · simp only [setEdge, if_neg h, lookupEdge, List.find?]
        simp only [Bool.not_eq_true] at h
        simp only [h]
        exact ih

/-- Membership in the neighbor list means the corresponding edge exists. -/
theorem mem_neighbors (nodes : List ℕ) (es : Edges) (v u : ℕ)
    (h : u ∈ neighbors nodes es v) : (lookupEdge es v u).isSome := by
  simpa using (List.of_mem_filter h)

/-- The scan never deletes entries of `nodelist`: the incoming list is a
prefix of the outgoing one. -/
theorem processNode_nl_grows (nodes : List ℕ) (st : Edges × List ℕ) (v : ℕ) :
    st.2 <+: (processNode nodes st v).2 := by
  unfold processNode
  rcases hn : neighbors nodes st.1 v with _ | ⟨n1, tl⟩
  · exact List.prefix_rfl
  rcases tl with _ | ⟨n2, tl2⟩
  · exact List.prefix_rfl
  rcases tl2 with _ | ⟨n3, tl3⟩
  · rcases h1 : lookupEdge st.1 v n1 with _ | e1 <;>
      rcases h2 : lookupEdge st.1 v n2 with _ | e2 <;>
        simp [h1, h2]
    by_cases hm : n1 ∉ st.2 ∧ n2 ∉ st.2
    · simp [hm]
    · simp [hm]
  · exact List.prefix_rfl

/-- Prefix stability of `nodelist` along the whole scan. -/
theorem foldl_processNode_nl_grows (nodes : List ℕ) :
    ∀ (ns : List ℕ) (st : Edges × List ℕ),
      st.2 <+: (List.foldl (processNode nodes) st ns).2 := by
  intro ns
  induction ns with
  | nil => intro st; exact List.prefix_rfl
  | cons v rest ih =>
      intro st
      exact (processNode_nl_grows nodes st v).trans (ih _)

/-- Every node the scan marks for removal is among the scanned nodes. -/
theorem foldl_processNode_nl_mem (nodes : List ℕ) :
    ∀ (ns : List ℕ) (st : Edges × List ℕ) (x : ℕ),
      x ∈ (List.foldl (processNode nodes) st ns).2 → x ∈ st.2 ∨ x ∈ ns := by
  intro ns
  induction ns with
  | nil => intro st x hx; exact Or.inl hx
  | cons v rest ih =>
      intro st x hx
      rcases ih (processNode nodes st v) x hx with h | h
      · unfold processNode at h
        rcases hn : neighbors nodes st.1 v with _ | ⟨n1, tl⟩ <;> simp [hn] at h
        · exact Or.inl h
        rcases tl with _ | ⟨n2, tl2⟩
        · simp at h; exact Or.inl h
        rcases tl2 with _ | ⟨n3, tl3⟩
        · rcases h1 : lookupEdge st.1 v n1 with _ | e1 <;>
            rcases h2 : lookupEdge st.1 v n2 with _ | e2 <;>
              simp [h1, h2] at h
          · exact Or.inl h
          · exact Or.inl h
          · exact Or.inl h
          · by_cases hm : n1 ∉ st.2 ∧ n2 ∉ st.2
            · simp [hm] at h
              rcases h with h | h
              · exact Or.inl h
              · exact Or.inr (by simp [h])
            · simp [hm] at h; exact Or.inl h
        · simp at h; exact Or.inl h
      · exact Or.inr (by simp [h])

/-- A single scan step that marks nothing leaves the edge store untouched,
and the scanned node did not have degree two. -/
theorem processNode_nil (nodes : List ℕ) (es : Edges) (v : ℕ)
    (h : (processNode nodes (es, []) v).2 = []) :
    processNode nodes (es, []) v = (es, []) ∧
      (neighbors nodes es v).length ≠ 2 := by
  unfold processNode at h ⊢
  rcases hn : neighbors nodes es v with _ | ⟨n1, tl⟩
  · simp [hn]
  rcases tl with _ | ⟨n2, tl2⟩
  · simp [hn]
  rcases tl2 with _ | ⟨n3, tl3⟩
  · exfalso
    have hs1 : (lookupEdge es v n1).isSome :=
      mem_neighbors nodes es v n1 (by rw [hn]; simp)
    have hs2 : (lookupEdge es v n2).isSome :=
      mem_neighbors nodes es v n2 (by rw [hn]; simp)
    rcases Option.isSome_iff_exists.1 hs1 with ⟨e1, h1⟩
    rcases Option.isSome_iff_exists.1 hs2 with ⟨e2, h2⟩
    rw [hn] at h
    simp [h1, h2] at h
  · simp [hn]

/-- A scan that marks no node for removal leaves the edge store untouched,
and no scanned node had degree two. -/
theorem foldl_processNode_nil (nodes : List ℕ) :
    ∀ (ns : List ℕ) (es : Edges),
      (List.foldl (processNode nodes) (es, []) ns).2 = [] →
      List.foldl (processNode nodes) (es, []) ns = (es, []) ∧
        ∀ v ∈ ns, (neighbors nodes es v).length ≠ 2 := by
  intro ns
  induction ns with
  | nil => intro es _; exact ⟨rfl, by simp⟩
  | cons v rest ih =>
      intro es hnil
      have hpre : (processNode nodes (es, []) v).2 <+:
          (List.foldl (processNode nodes) (processNode nodes (es, []) v) rest).2 :=
        foldl_processNode_nl_grows nodes rest _
      simp only [List.foldl_cons] at hnil
      rw [hnil] at hpre
      have hstep := processNode_nil nodes es v (List.prefix_nil.1 hpre)
      have hrest := ih es (by simpa [hstep.1] using hnil)
      refine ⟨by simpa [hstep.1] using hrest.1, ?_⟩
      intro u hu
      rcases List.mem_cons.1 hu with h | h
      · exact h ▸ hstep.2
      · exact hrest.2 u h

/-- Conversely, on a graph with no degree-two node the scan is a no-op. -/
theorem foldl_processNode_of_noDeg2 (nodes : List ℕ) :
    ∀ (ns : List ℕ) (es : Edges),
      (∀ v ∈ ns, (neighbors nodes es v).length ≠ 2) →
      List.foldl (processNode nodes) (es, []) ns = (es, []) := by
  intro ns
  induction ns with
  | nil => intro es _; rfl
  | cons v rest ih =>
      intro es hdeg
      have hv : (neighbors nodes es v).length ≠ 2 := hdeg v (by simp)
      have hstep : processNode nodes (es, []) v = (es, []) := by
        unfold processNode
        rcases hn : neighbors nodes es v with _ | ⟨n1, tl⟩
        · simp
        rcases tl with _ | ⟨n2, tl2⟩
        · simp
        rcases tl2 with _ | ⟨n3, tl3⟩
        · exact absurd (by rw [hn]; rfl) hv
        · simp
      simp only [List.foldl_cons, hstep]
      exact ih es (fun u hu => hdeg u (by simp [hu]))

/-- Removing a node never increases the node count. -/
theorem removeNode_order_le (G : Graph) (v : ℕ) :
    (removeNode G v).order ≤ G.order :=
  List.length_filter_le _ _

/-- Removing a present node strictly decreases the node count. -/
theorem removeNode_order_lt (G : Graph) (v : ℕ) (h : v ∈ G.nodes) :
    (removeNode G v).order < G.order := by
  apply List.length_filter_lt_length_iff_exists.2
  exact ⟨v, h, by simp⟩

/-- Folded node removal never increases the node count. -/
theorem foldl_removeNode_order_le :
    ∀ (nl : List ℕ) (G : Graph), (List.foldl removeNode G nl).order ≤ G.order := by
  intro nl
  induction nl with
  | nil => intro G; exact le_rfl
  | cons v rest ih =>
      intro G
      exact (ih (removeNode G v)).trans (removeNode_order_le G v)

/-- A collapse pass never increases the node count. -/
theorem collapsePass_order_le (G G' : Graph) (h : collapsePass G = some G') :
    G'.order ≤ G.order := by
  unfold collapsePass at h
  by_cases hg : ((collapseScan G.nodes G.edges).2.length : ℤ) =
      (G.nodes.length : ℤ) - 1
  · rw [if_pos hg] at h
    by_cases h1 : 1 ∈ (collapseScan G.nodes G.edges).2
    · rw [if_pos h1, Option.some_inj] at h
      exact h ▸ removeNode_order_le ⟨G.nodes, (collapseScan G.nodes G.edges).1⟩ 1
    · rw [if_neg h1] at h; exact absurd h (by simp)
  · rw [if_neg hg, Option.some_inj] at h
    exact h ▸ foldl_removeNode_order_le _ ⟨G.nodes, (collapseScan G.nodes G.edges).1⟩

/-- A collapse pass that does not change the node count changed nothing at
all, and the graph had no degree-two node to begin with. -/
theorem collapsePass_order_eq (G G' : Graph) (h : collapsePass G = some G')
    (heq : G'.order = G.order) : G' = G ∧ noDeg2 G := by
  unfold collapsePass at h
  by_cases hg : ((collapseScan G.nodes G.edges).2.length : ℤ) =
      (G.nodes.length : ℤ) - 1
  · exfalso
    rw [if_pos hg] at h
    by_cases h1 : 1 ∈ (collapseScan G.nodes G.edges).2
    · rw [if_pos h1, Option.some_inj] at h
      have hmem : (1 : ℕ) ∈ G.nodes := by
        rcases foldl_processNode_nl_mem G.nodes G.nodes
            (G.edges, []) 1 h1 with hc | hc
        · exact absurd hc (by simp)
        · exact hc
      have hlt := removeNode_order_lt ⟨G.nodes, (collapseScan G.nodes G.edges).1⟩ 1 hmem
      rw [h] at hlt
      simp only [Graph.order] at hlt heq
      omega
    · rw [if_neg h1] at h; exact absurd h (by simp)
  · rw [if_neg hg, Option.some_inj] at h
    rcases hnl : (collapseScan G.nodes G.edges).2 with _ | ⟨x, rest⟩
    · have hscan := foldl_processNode_nil G.nodes G.nodes G.edges
        (by simpa [collapseScan] using hnl)
      have hes : (collapseScan G.nodes G.edges).1 = G.edges := by
        simpa [collapseScan] using congrArg Prod.fst hscan.1
      constructor
      · rw [← h, hnl, hes]; rfl
      · exact hscan.2
    · exfalso
      have hx : x ∈ (collapseScan G.nodes G.edges).2 := by
        rw [hnl]; exact List.mem_cons_self x rest
      have hxmem : x ∈ G.nodes := by
        rcases foldl_processNode_nl_mem G.nodes G.nodes (G.edges, []) x hx
            with hc | hc
        · exact absurd hc (by simp)
        · exact hc
      have hlt : (List.foldl removeNode ⟨G.nodes, (collapseScan G.nodes G.edges).1⟩
          (x :: rest)).order < G.order := by
        calc (List.foldl removeNode ⟨G.nodes, (collapseScan G.nodes G.edges).1⟩
              (x :: rest)).order
            ≤ (removeNode ⟨G.nodes, (collapseScan G.nodes G.edges).1⟩ x).order := by
              simpa using foldl_removeNode_order_le rest _
          _ < G.order := removeNode_order_lt _ x hxmem
      rw [hnl] at h
      rw [← h] at heq
      omega

/-- A graph with no degree-two node and node count different from one is a
fixed point of the collapse pass. -/
theorem collapsePass_fix (G : Graph) (hdeg : noDeg2 G) (hord : G.order ≠ 1) :
    collapsePass G = some G := by
  have hscan : collapseScan G.nodes G.edges = (G.edges, []) :=
    foldl_processNode_of_noDeg2 G.nodes G.nodes G.edges hdeg
  unfold collapsePass
  rw [hscan]
  have hg : ¬ ((([] : List ℕ).length : ℤ) = (G.nodes.length : ℤ) - 1) := by
    simp [Graph.order] at hord ⊢
    omega
  rw [if_neg hg]
  rfl

/-- An empty graph has no degree-two node. -/
theorem noDeg2_of_order_zero (G : Graph) (h : G.order = 0) : noDeg2 G := by
  intro v hv
  rw [List.length_eq_zero.1 h] at hv
  exact absurd hv (by simp)

/-- Loop invariant for mode `0` ("all"): whatever graph the loop returns has
no degree-two node.  The invariant tracks that `new_order` is either the
current node count or the initial placeholder `0`, and that the top-of-loop
break can only fire on a graph with no degree-two node. -/
theorem rrnAux_mode0 :
    ∀ (fuel : ℕ) (G : Graph) (order newOrder i : ℕ) (G' : Graph) (k : ℕ),
      (newOrder = G.order ∨ newOrder = 0) →
      (newOrder = order → noDeg2 G) →
      rrnAux fuel G 0 order newOrder i = .ok (G', k) → noDeg2 G' := by
  intro fuel
  induction fuel with
  | zero => intro G order newOrder i G' k _ _ h; exact absurd h (by simp [rrnAux])
  | succ fuel ih =>
      intro G order newOrder i G' k hinv hbrk h
      unfold rrnAux at h
      rw [if_neg (by simp)] at h
      by_cases htop : (0 : ℕ) = 0 ∧ newOrder = order
      · rw [if_pos htop] at h
        have : G = G' := congrArg Prod.fst (Except.ok.inj h)
        exact this ▸ hbrk htop.2
      · rw [if_neg htop, if_neg (by simp)] at h
        rcases hpass : collapsePass G with _ | G2
        · simp only [hpass] at h
          exact absurd h (by simp)
        · simp only [hpass] at h
          by_cases hbot : newOrder = G2.order
          · rw [if_pos hbot] at h
            have hG2 : G2 = G' := congrArg Prod.fst (Except.ok.inj h)
            rcases hinv with hcur | hzero
            · have heq : G2.order = G.order := by rw [← hbot, hcur]
              rcases collapsePass_order_eq G G2 hpass heq with ⟨hGG, hdeg⟩
              exact hG2 ▸ hGG ▸ hdeg
            · have : G2.order = 0 := by rw [← hbot, hzero]
              exact hG2 ▸ noDeg2_of_order_zero G2 this
          · rw [if_neg hbot] at h
            exact ih G2 newOrder G2.order (i + 1) G' k (Or.inl rfl)
              (fun hc => absurd hc.symm hbot) h

/-- Loop invariant for mode `1` ("half"): at most `3` passes run, and if the
loop stops after fewer than `3` passes the returned graph is a fixed point
of the collapse pass (the node count had stabilized). -/
theorem rrnAux_mode1 :
    ∀ (fuel : ℕ) (G : Graph) (order newOrder i : ℕ) (G' : Graph) (k : ℕ),
      (newOrder = G.order ∨ newOrder = 0) →
      i ≤ 3 →
      rrnAux fuel G 1 order newOrder i = .ok (G', k) →
      i ≤ k ∧ k ≤ 3 ∧ (k < 3 → collapsePass G' = some G') := by
  intro fuel
  induction fuel with
  | zero => intro G order newOrder i G' k _ _ h; exact absurd h (by simp [rrnAux])
  | succ fuel ih =>
      intro G order newOrder i G' k hinv hi h
      unfold rrnAux at h
      by_cases htop : (1 : ℕ) = 1 ∧ i > 2
      · rw [if_pos htop] at h
        have hk : i = k := congrArg Prod.snd (Except.ok.inj h)
        refine ⟨le_of_eq hk, hk ▸ hi, ?_⟩
        intro hlt
        omega
      · rw [if_neg htop, if_neg (by simp), if_neg (by simp)] at h
        have hi2 : i ≤ 2 := by omega
        rcases hpass : collapsePass G with _ | G2
        · simp only [hpass] at h
          exact absurd h (by simp)
        · simp only [hpass] at h
          by_cases hbot : newOrder = G2.order
          · rw [if_pos hbot] at h
            have hG2 : G2 = G' := congrArg Prod.fst (Except.ok.inj h)
            have hk : i + 1 = k := congrArg Prod.snd (Except.ok.inj h)
            refine ⟨by omega, by omega, ?_⟩
            intro _
            rcases hinv with hcur | hzero
            · have heq : G2.order = G.order := by rw [← hbot, hcur]
              rcases collapsePass_order_eq G G2 hpass heq with ⟨hGG, _⟩
              rw [← hG2, hGG]
              exact hGG ▸ hpass
            · have hz : G2.order = 0 := by rw [← hbot, hzero]
              rw [← hG2]
              exact collapsePass_fix G2 (noDeg2_of_order_zero G2 hz) (by omega)
          · rw [if_neg hbot] at h
            have := ih G2 newOrder G2.order (i + 1) G' k (Or.inl rfl)
              (by omega) h
            exact ⟨by omega, this.2.1, this.2.2⟩

/-- C3: every collapse pass of `removeRedundantNodes` is monotone in the
node count, and a full mode-0 ("all") run returns a graph with no node of
degree exactly two (the single-cycle allowance of the claim is not even
needed: whenever the run returns a graph at all, that graph has no
degree-two node). -/
theorem claim_C3 (G : Graph) :
    (∀ G', collapsePass G = some G' → G'.order ≤ G.order) ∧
    (∀ G' k, removeRedundantNodes G 0 = .ok (G', k) → noDeg2 G') := by
  constructor
  · intro G' h
    exact collapsePass_order_le G G' h
  · intro G' k h
    exact rrnAux_mode0 (G.order + 2) G G.order 0 0 G' k (Or.inr rfl)
      (fun hc => noDeg2_of_order_zero G hc.symm) h

/-- Witness for C3 at a concrete two-node graph: the pass keeps the node
count and the mode-0 run ends with no degree-two node. -/
theorem claim_C3_witness :
    (⟨[4, 6], [((4, 6), ⟨2, 9⟩)]⟩ : Graph).order ≤
      (⟨[4, 6], [((4, 6), ⟨2, 9⟩)]⟩ : Graph).order ∧
      noDeg2 ⟨[4, 6], [((4, 6), ⟨2, 9⟩)]⟩ :=
  ⟨(claim_C3 ⟨[4, 6], [((4, 6), ⟨2, 9⟩)]⟩).1 _ rfl,
   (claim_C3 ⟨[4, 6], [((4, 6), ⟨2, 9⟩)]⟩).2 _ 2 rfl⟩

/-- C6 (refuting evaluation): on the well-formed single-node graph the
degenerate guard of `removeRedundantNodes` fires (`len(nodelist) = 0`
equals `order - 1 = 0`) and `nodelist[1]` raises `KeyError`, in mode 0 and
in mode 1 alike — the stage is not total. -/
theorem claim_C6_keyerror :
    removeRedundantNodes ⟨[0], []⟩ 0 = .error .keyErr ∧
      removeRedundantNodes ⟨[0], []⟩ 1 = .error .keyErr :=
  ⟨rfl, rfl⟩

/-- C7: a mode-1 ("half") run performs at most three collapse passes, and
if it stops after fewer than three, the returned graph is a fixed point of
the collapse pass (the node count had stabilized). -/
theorem claim_C7 (G G' : Graph) (k : ℕ)
    (h : removeRedundantNodes G 1 = .ok (G', k)) :
    k ≤ 3 ∧ (k < 3 → collapsePass G' = some G') := by
  have hmain := rrnAux_mode1 (G.order + 2) G G.order 0 0 G' k (Or.inr rfl)
    (by omega) h
  exact ⟨hmain.2.1, hmain.2.2⟩

/-- Witness for C7 at a concrete two-node graph: the run stabilizes after
two passes and the result is a fixed point. -/
theorem claim_C7_witness :
    2 ≤ 3 ∧ (2 < 3 →
      collapsePass ⟨[5, 7], [((5, 7), ⟨3, 1⟩)]⟩ =
        some ⟨[5, 7], [((5, 7), ⟨3, 1⟩)]⟩) :=
  claim_C7 ⟨[5, 7], [((5, 7), ⟨3, 1⟩)]⟩ ⟨[5, 7], [((5, 7), ⟨3, 1⟩)]⟩ 2 rfl

/-- Modelled from the spec's words, for comparison with the code (claim C1):
merged edge conductivity `(c1·w1 + c2·w2) / max(w1 + w2, 1)`. -/
def specMergeConductivity (w1 w2 c1 c2 : ℚ) : ℚ :=
  (c1 * w1 + c2 * w2) / max (w1 + w2) 1

/-- C1 (amended): when the scan processes a degree-two node `v` with
neighbors `n1, n2`, the merged `n1`–`n2` edge receives weight
`w1 + w2` clamped to `1` exactly when the sum is `0`, and conductivity
`(c1·w1 + c2·w2)` divided by that clamped weight; this agrees with the
claimed `max(w1 + w2, 1)` denominator precisely on the inputs where the sum
is `0` or at least `1`. -/
theorem claim_C1 (nodes : List ℕ) (es : Edges) (nl : List ℕ)
    (v n1 n2 : ℕ) (e1 e2 : EdgeAttr)
    (hn : neighbors nodes es v = [n1, n2])
    (h1 : lookupEdge es v n1 = some e1)
    (h2 : lookupEdge es v n2 = some e2) :
    lookupEdge (processNode nodes (es, nl) v).1 n1 n2 =
      some ⟨if e1.weight + e2.weight = 0 then 1 else e1.weight + e2.weight,
            (e1.conductivity * e1.weight + e2.conductivity * e2.weight) /
              (if e1.weight + e2.weight = 0 then 1
               else e1.weight + e2.weight)⟩ ∧
    ((e1.weight + e2.weight = 0 ∨ 1 ≤ e1.weight + e2.weight) →
      (e1.conductivity * e1.weight + e2.conductivity * e2.weight) /
          (if e1.weight + e2.weight = 0 then 1 else e1.weight + e2.weight) =
        specMergeConductivity e1.weight e2.weight
          e1.conductivity e2.conductivity) := by
  constructor
  · unfold processNode
    rw [show (es, nl).1 = es from rfl, hn]
    simp only [h1, h2]
    exact lookupEdge_setEdge_self es n1 n2 _
  · intro hcase
    unfold specMergeConductivity
    rcases hcase with hzero | hone
    · rw [if_pos hzero, hzero]
      rw [max_eq_right (by norm_num : (0 : ℚ) ≤ 1)]
    · have hne : e1.weight + e2.weight ≠ 0 := by
        intro hc
        rw [hc] at hone
        norm_num at hone
      rw [if_neg hne, max_eq_left hone]

/-- Witness for C1: the step on the concrete path `0 – 1 – 2` with weights
`1, 1` and conductivities `2, 4` writes the edge `(0, 2)` with weight `2`
and conductivity `3`. -/
theorem claim_C1_witness :
    lookupEdge
      (processNode [0, 1, 2]
        ([((0, 1), ⟨1, 2⟩), ((1, 2), ⟨1, 4⟩)], []) 1).1 0 2 =
      some ⟨2, 3⟩ := by
  have h := claim_C1 [0, 1, 2] [((0, 1), ⟨1, 2⟩), ((1, 2), ⟨1, 4⟩)] []
    1 0 2 ⟨1, 2⟩ ⟨1, 4⟩ rfl rfl rfl
  rw [h.1]
  norm_num

/-- Counterexample to C1 as stated: on the path `0 – 1 – 2` with edge
weights `1/4` and conductivities `1`, the code assigns conductivity
`(1·¼ + 1·¼)/(¼ + ¼) = 1` to the merged edge, while the claimed formula
`(c1·w1 + c2·w2)/max(w1 + w2, 1)` yields `1/2`. -/
theorem claim_C1_counterexample :
    collapsePass ⟨[0, 1, 2], [((0, 1), ⟨1/4, 1⟩), ((1, 2), ⟨1/4, 1⟩)]⟩ =
      some ⟨[0, 2], [((0, 2), ⟨1/2, 1⟩)]⟩ ∧
    specMergeConductivity (1/4) (1/4) 1 1 = 1/2 ∧ (1 : ℚ) ≠ 1/2 := by
  refine ⟨?_, ?_, by norm_num⟩
  · norm_num [collapsePass, collapseScan, processNode, neighbors, lookupEdge,
      setEdge, edgeMatches, removeNode, List.find?, List.filter]
  · norm_num [specMergeConductivity]

/-- Case analysis for a permutation of a three-element list. -/
theorem perm_three {α : Type} {x y z a b c : α} (h : [x, y, z].Perm [a, b, c]) :
    (x = a ∧ y = b ∧ z = c) ∨ (x = a ∧ y = c ∧ z = b) ∨
    (x = b ∧ y = a ∧ z = c) ∨ (x = b ∧ y = c ∧ z = a) ∨
    (x = c ∧ y = a ∧ z = b) ∨ (x = c ∧ y = b ∧ z = a) := by
  have hpair : ∀ (u v p q : α), [u, v].Perm [p, q] →
      (u = p ∧ v = q) ∨ (u = q ∧ v = p) := by
    intro u v p q hp
    have hu : u ∈ [p, q] := hp.subset (by simp)
    rcases (by simpa using hu : u = p ∨ u = q) with rfl | rfl
    · left
      have := (List.perm_cons u).1 hp
      exact ⟨rfl, by simpa using (List.perm_singleton.1 this)⟩
    · right
      have hswap : [p, u].Perm [u, p] := List.Perm.swap u p []
      have := (List.perm_cons u).1 (hp.trans hswap)
      exact ⟨rfl, by simpa using (List.perm_singleton.1 this)⟩
  have hx : x ∈ [a, b, c] := h.subset (by simp)
  rcases (by simpa using hx : x = a ∨ x = b ∨ x = c) with rfl | rfl | rfl
  · have hyz := (List.perm_cons x).1 h
    rcases hpair _ _ _ _ hyz with ⟨h1, h2⟩ | ⟨h1, h2⟩
    · exact Or.inl ⟨rfl, h1, h2⟩
    · exact Or.inr (Or.inl ⟨rfl, h1, h2⟩)
  · have hswap : [a, x, c].Perm (x :: [a, c]) := List.Perm.swap x a [c]
    have hyz := (List.perm_cons x).1 (h.trans hswap)
    rcases hpair _ _ _ _ hyz with ⟨h1, h2⟩ | ⟨h1, h2⟩
    · exact Or.inr (Or.inr (Or.inl ⟨rfl, h1, h2⟩))
    · exact Or.inr (Or.inr (Or.inr (Or.inl ⟨rfl, h1, h2⟩)))
  · have hstep : [a, b, x].Perm (x :: [a, b]) := by
      have h1 : [b, x].Perm [x, b] := List.Perm.swap x b []
      have h2 : [a, b, x].Perm [a, x, b] := List.Perm.cons a h1
      exact h2.trans (List.Perm.swap x a [b])
    have hyz := (List.perm_cons x).1 (h.trans hstep)
    rcases hpair _ _ _ _ hyz with ⟨h1, h2⟩ | ⟨h1, h2⟩
    · exact Or.inr (Or.inr (Or.inr (Or.inr (Or.inl ⟨rfl, h1, h2⟩))))
    · exact Or.inr (Or.inr (Or.inr (Or.inr (Or.inr ⟨rfl, h1, h2⟩))))

/-- C2 (amended): a collapse pass on a simple path `A – B – C` (with `B`
the degree-two middle node, any scan order of the three nodes) removes `B`
and leaves exactly one edge, the `A`–`C` edge, with weight exactly
`w(A,B) + w(B,C)` and conductivity the length-weighted average of the two
original conductivities — provided the two weights do not sum to `0`; in
that degenerate case the code clamps the weight to `1` (see the
counterexample). -/
theorem claim_C2 (A B C : ℕ) (wAB cAB wBC cBC : ℚ) (l : List ℕ)
    (hAB : A ≠ B) (hAC : A ≠ C) (hBC : B ≠ C)
    (hl : l.Perm [A, B, C]) (hw : wAB + wBC ≠ 0) :
    ∃ G' : Graph,
      collapsePass ⟨l, [((A, B), ⟨wAB, cAB⟩), ((B, C), ⟨wBC, cBC⟩)]⟩ =
        some G' ∧
      G'.nodes.Perm [A, C] ∧
      lookupEdge G'.edges A C =
        some ⟨wAB + wBC, (cAB * wAB + cBC * wBC) / (wAB + wBC)⟩ ∧
      G'.edges.length = 1 := by
  have hw2 : wBC + wAB ≠ 0 := by rw [add_comm]; exact hw
  have hlen : l.length = 3 := by simpa using hl.length_eq
  obtain ⟨x, y, z, rfl⟩ : ∃ x y z, l = [x, y, z] := by
    rcases l with _ | ⟨x, l1⟩
    · exfalso; simp at hlen
    rcases l1 with _ | ⟨y, l2⟩
    · exfalso; simp at hlen
    rcases l2 with _ | ⟨z, l3⟩
    · exfalso; simp at hlen
    rcases l3 with _ | ⟨w, l4⟩
    · exact ⟨x, y, z, rfl⟩
    · exfalso
      simp only [List.length_cons] at hlen
      omega
  rcases perm_three hl with ⟨h1, h2, h3⟩ | ⟨h1, h2, h3⟩ | ⟨h1, h2, h3⟩ |
    ⟨h1, h2, h3⟩ | ⟨h1, h2, h3⟩ | ⟨h1, h2, h3⟩ <;> rw [h1, h2, h3]
  · refine ⟨⟨[A, C],
      [((A, C), ⟨wAB + wBC, (cAB * wAB + cBC * wBC) / (wAB + wBC)⟩)]⟩,
      ?_, List.Perm.refl _, ?_, rfl⟩
    · simp [collapsePass, collapseScan, processNode, neighbors, lookupEdge,
        setEdge, edgeMatches, removeNode, List.find?, List.filter, hAB, hAC,
        hBC, hw, Ne.symm hAB, Ne.symm hAC, Ne.symm hBC]
    · simp [lookupEdge, edgeMatches, List.find?]
  · refine ⟨⟨[A, C],
      [((A, C), ⟨wAB + wBC, (cAB * wAB + cBC * wBC) / (wAB + wBC)⟩)]⟩,
      ?_, List.Perm.refl _, ?_, rfl⟩
    · simp [collapsePass, collapseScan, processNode, neighbors, lookupEdge,
        setEdge, edgeMatches, removeNode, List.find?, List.filter, hAB, hAC,
        hBC, hw, Ne.symm hAB, Ne.symm hAC, Ne.symm hBC]
    · simp [lookupEdge, edgeMatches, List.find?]
  · refine ⟨⟨[A, C],
      [((A, C), ⟨wAB + wBC, (cAB * wAB + cBC * wBC) / (wAB + wBC)⟩)]⟩,
      ?_, List.Perm.refl _, ?_, rfl⟩
    · simp [collapsePass, collapseScan, processNode, neighbors, lookupEdge,
        setEdge, edgeMatches, removeNode, List.find?, List.filter, hAB, hAC,
        hBC, hw, Ne.symm hAB, Ne.symm hAC, Ne.symm hBC]
    · simp [lookupEdge, edgeMatches, List.find?]
  · refine ⟨⟨[C, A],
      [((C, A), ⟨wBC + wAB, (cBC * wBC + cAB * wAB) / (wBC + wAB)⟩)]⟩,
      ?_, List.Perm.swap A C [], ?_, rfl⟩
    · simp [collapsePass, collapseScan, processNode, neighbors, lookupEdge,
        setEdge, edgeMatches, removeNode, List.find?, List.filter, hAB, hAC,
        hBC, hw, hw2, Ne.symm hAB, Ne.symm hAC, Ne.symm hBC]
    · simp [lookupEdge, edgeMatches, List.find?, EdgeAttr.mk.injEq]
      constructor <;> ring
  · refine ⟨⟨[C, A],
      [((C, A), ⟨wBC + wAB, (cBC * wBC + cAB * wAB) / (wBC + wAB)⟩)]⟩,
      ?_, List.Perm.swap A C [], ?_, rfl⟩
    · simp [collapsePass, collapseScan, processNode, neighbors, lookupEdge,
        setEdge, edgeMatches, removeNode, List.find?, List.filter, hAB, hAC,
        hBC, hw, hw2, Ne.symm hAB, Ne.symm hAC, Ne.symm hBC]
    · simp [lookupEdge, edgeMatches, List.find?, EdgeAttr.mk.injEq]
      constructor <;> ring
  · refine ⟨⟨[C, A],
      [((C, A), ⟨wBC + wAB, (cBC * wBC + cAB * wAB) / (wBC + wAB)⟩)]⟩,
      ?_, List.Perm.swap A C [], ?_, rfl⟩
    · simp [collapsePass, collapseScan, processNode, neighbors, lookupEdge,
        setEdge, edgeMatches, removeNode, List.find?, List.filter, hAB, hAC,
        hBC, hw, hw2, Ne.symm hAB, Ne.symm hAC, Ne.symm hBC]
    · simp [lookupEdge, edgeMatches, List.find?, EdgeAttr.mk.injEq]
      constructor <;> ring

/-- Witness for C2 at the concrete path `0 – 1 – 2` with weights `1, 1` and
conductivities `3, 5`. -/
theorem claim_C2_witness :
    ∃ G' : Graph,
      collapsePass ⟨[0, 1, 2], [((0, 1), ⟨1, 3⟩), ((1, 2), ⟨1, 5⟩)]⟩ =
        some G' ∧
      G'.nodes.Perm [0, 2] ∧
      lookupEdge G'.edges 0 2 = some ⟨1 + 1, (3 * 1 + 5 * 1) / (1 + 1)⟩ ∧
      G'.edges.length = 1 :=
  claim_C2 0 1 2 1 3 1 5 [0, 1, 2] (by decide) (by decide) (by decide)
    (List.Perm.refl _) (by norm_num)

/-- Counterexample to C2 as stated: on the path `0 – 1 – 2` whose two edges
both have weight `0`, the merged edge receives weight `1` (the clamped
denominator is reused as the new weight), not `w(A,B) + w(B,C) = 0`. -/
theorem claim_C2_counterexample :
    collapsePass ⟨[0, 1, 2], [((0, 1), ⟨0, 5⟩), ((1, 2), ⟨0, 7⟩)]⟩ =
      some ⟨[0, 2], [((0, 2), ⟨1, 0⟩)]⟩ ∧ (1 : ℚ) ≠ 0 + 0 := by
  refine ⟨?_, by norm_num⟩
  norm_num [collapsePass, collapseScan, processNode, neighbors, lookupEdge,
    setEdge, edgeMatches, removeNode, List.find?, List.filter]

/-- A contour: ordered sequence of 2-D points (floats modelled by `ℚ`). -/
abbrev Contour := List (ℚ × ℚ)

/-- Model of `thresholdContours` (`net_utilities.py` lines 132-148): the
loop appends, in order, exactly the contours whose point count is strictly
greater than the threshold. -/
def thresholdContours (contours : List Contour) (threshold : ℤ) :
    List Contour :=
  contours.foldl
    (fun acc c => if (c.length : ℤ) > threshold then acc ++ [c] else acc) []

/-- The loop appends exactly the contours passing the length test: the
result is the in-order filter of the input. -/
theorem thresholdContours_eq_filter (contours : List Contour) (t : ℤ) :
    thresholdContours contours t =
      contours.filter (fun c => decide (t < (c.length : ℤ))) := by
  have haux : ∀ (cs : List Contour) (acc : List Contour),
      cs.foldl
        (fun acc c => if (c.length : ℤ) > t then acc ++ [c] else acc) acc =
        acc ++ cs.filter (fun c => decide (t < (c.length : ℤ))) := by
    intro cs
    induction cs with
    | nil => intro acc; simp
    | cons c rest ih =>
        intro acc
        by_cases hc : (c.length : ℤ) > t
        · simp only [List.foldl_cons, if_pos hc, ih, List.filter_cons,
            decide_eq_true hc, List.append_assoc]
          rfl
        · simp only [List.foldl_cons, if_neg hc, ih, List.filter_cons]
          rw [decide_eq_false hc]
          simp
  exact haux contours []

/-- The first stage of `createContours` that can fail (`Vectorisation.py`
lines 227-241): threshold the flattened contours at `3`, then search for
the index of the longest one with `longuest_length` starting at `0` and
`longuest_index` unassigned (`none`). -/
def findLonguestIndex (contours : List Contour) : Option ℕ :=
  (contours.foldl
    (fun (st : ℕ × Option ℕ × ℕ) c =>
      if c.length > st.1 then (c.length, some st.2.2, st.2.2 + 1)
      else (st.1, st.2.1, st.2.2 + 1))
    (0, none, 0)).2.1

/-- Model of `createContours` from the flattened contour list on
(`Vectorisation.py` lines 219-241): threshold at `3`; returning the still
unassigned `longuest_index` raises `UnboundLocalError`, modelled by
`Except.error`. -/
def createContours (flattened : List Contour) :
    Except Unit (ℕ × List Contour) :=
  let thresholded := thresholdContours flattened 3
  match findLonguestIndex thresholded with
  | some i => .ok (i, thresholded)
  | none => .error ()

/-- C8: `thresholdContours` keeps exactly the contours longer than the
threshold, in their original order (it is the filter of the input list);
at the pipeline's threshold `3`, every survivor has at least `4` points
and every shorter contour is discarded. -/
theorem claim_C8 (contours : List Contour) (t : ℤ) :
    thresholdContours contours t =
      contours.filter (fun c => decide (t < (c.length : ℤ))) ∧
    (∀ c ∈ thresholdContours contours 3, 4 ≤ c.length) ∧
    (∀ c ∈ contours, c.length < 4 → c ∉ thresholdContours contours 3) := by
  refine ⟨thresholdContours_eq_filter contours t, ?_, ?_⟩
  · intro c hc
    rw [thresholdContours_eq_filter] at hc
    have := List.of_mem_filter hc
    simp only [decide_eq_true_eq] at this
    omega
  · intro c _ hlen hmem
    rw [thresholdContours_eq_filter] at hmem
    have := List.of_mem_filter hmem
    simp only [decide_eq_true_eq] at this
    omega

/-- Witness for C8 at a concrete contour list: the 4-point contour is kept,
the 3-point contour is dropped. -/
theorem claim_C8_witness :
    thresholdContours [[(0, 0), (1, 0), (1, 1)],
        [(0, 0), (1, 0), (1, 1), (0, 1)]] 3 =
      [[(0, 0), (1, 0), (1, 1)],
        [(0, 0), (1, 0), (1, 1), (0, 1)]].filter
          (fun c => decide ((3 : ℤ) < (c.length : ℤ))) ∧
    4 ≤ ([(0, 0), (1, 0), (1, 1), (0, 1)] : Contour).length ∧
    ([(0, 0), (1, 0), (1, 1)] : Contour) ∉
      thresholdContours [[(0, 0), (1, 0), (1, 1)],
        [(0, 0), (1, 0), (1, 1), (0, 1)]] 3 := by
  have h := claim_C8 [[(0, 0), (1, 0), (1, 1)],
    [(0, 0), (1, 0), (1, 1), (0, 1)]] 3
  exact ⟨h.1, h.2.1 _ (by rw [h.1]; decide), h.2.2 _ (by decide) (by decide)⟩

/-- C9: if every flattened contour is shorter than `4` points, thresholding
at `3` leaves nothing, `longuest_index` is never assigned and
`createContours` fails instead of returning. -/
theorem claim_C9 (flattened : List Contour)
    (h : ∀ c ∈ flattened, c.length < 4) :
    createContours flattened = .error () := by
  have hempty : thresholdContours flattened 3 = [] := by
    rw [thresholdContours_eq_filter]
    apply List.filter_eq_nil_iff.2
    intro c hc
    simp only [decide_eq_true_eq, not_lt]
    exact_mod_cast Nat.le_of_lt_succ (h c hc)
  unfold createContours
  rw [hempty]
  rfl

/-- Witness for C9: a single 3-point contour (extracted from a non-empty
mask) makes `createContours` fail. -/
theorem claim_C9_witness :
    createContours [[(0, 0), (1, 0), (1, 1)]] = .error () :=
  claim_C9 [[(0, 0), (1, 0), (1, 1)]] (by decide)

/-- A binary mask slice: grid of pixel values (unsigned, so `ℕ`). -/
abbrev Mask := List (List ℕ)

/-- Total pixel sum `np.sum(sli)` of a slice. -/
def maskSum (sli : Mask) : ℕ := (sli.map (fun row => row.sum)).sum

/-- The pipeline stages a slice can trigger inside `vectorize`. -/
inductive Stage where
  | contourExtraction : Stage
  | meshing : Stage
  | triangulation : Stage
  | classification : Stage
  | pruning : Stage
  | graphBuild : Stage
  | saveGraph : Stage
deriving DecidableEq, Repr

/-- Stage trace of the per-slice body of `vectorize` (`Vectorisation.py`
lines 609-732): a slice with `np.sum(sli) <= 0` saves an empty graph and
jumps to the next slice; otherwise the full chain
contours → mesh → triangulation → classification → pruning → graph build
runs before saving. -/
def sliceStages (sli : Mask) : List Stage :=
  if maskSum sli ≤ 0 then [.saveGraph]
  else [.contourExtraction, .meshing, .triangulation, .classification,
        .pruning, .graphBuild, .saveGraph]

/-- The zero-node, zero-edge graph written for an empty slice. -/
def zeroGraph : Graph := ⟨[], []⟩

/-- Graph persisted for a slice; the non-empty branch delegates to the
(unmodelled, cv2/meshpy-backed) full pipeline `rest`. -/
def sliceGraph (rest : Mask → Graph) (sli : Mask) : Graph :=
  if maskSum sli ≤ 0 then zeroGraph else rest sli

/-- C5: a slice whose pixels sum to zero is persisted as a graph with zero
nodes and zero edges, and none of the pipeline stages (contour extraction,
meshing, triangulation, classification, pruning, graph build) is invoked —
only the save happens. -/
theorem claim_C5 (rest : Mask → Graph) (sli : Mask) (h : maskSum sli = 0) :
    sliceGraph rest sli = zeroGraph ∧ zeroGraph.order = 0 ∧
    zeroGraph.edges = [] ∧
    Stage.contourExtraction ∉ sliceStages sli ∧
    Stage.meshing ∉ sliceStages sli ∧
    Stage.triangulation ∉ sliceStages sli ∧
    Stage.classification ∉ sliceStages sli ∧
    Stage.pruning ∉ sliceStages sli ∧
    Stage.graphBuild ∉ sliceStages sli ∧
    Stage.saveGraph ∈ sliceStages sli := by
  have hle : maskSum sli ≤ 0 := by omega
  refine ⟨by simp [sliceGraph, hle], rfl, rfl, ?_, ?_, ?_, ?_, ?_, ?_, ?_⟩ <;>
    simp [sliceStages, hle]

/-- Witness for C5 at a concrete all-zero slice (and a pipeline stub that
would return a non-empty graph if it were invoked). -/
theorem claim_C5_witness :
    sliceGraph (fun _ => ⟨[9], []⟩) [[0, 0], [0]] = zeroGraph ∧
    zeroGraph.order = 0 ∧ zeroGraph.edges = [] ∧
    Stage.contourExtraction ∉ sliceStages [[0, 0], [0]] ∧
    Stage.meshing ∉ sliceStages [[0, 0], [0]] ∧
    Stage.triangulation ∉ sliceStages [[0, 0], [0]] ∧
    Stage.classification ∉ sliceStages [[0, 0], [0]] ∧
    Stage.pruning ∉ sliceStages [[0, 0], [0]] ∧
    Stage.graphBuild ∉ sliceStages [[0, 0], [0]] ∧
    Stage.saveGraph ∈ sliceStages [[0, 0], [0]] :=
  claim_C5 (fun _ => ⟨[9], []⟩) [[0, 0], [0]] rfl

/-- Edge existence test used by the component search. -/
def hasEdge (es : Edges) (a b : ℕ) : Bool := (lookupEdge es a b).isSome

/-- One breadth-first expansion of a set of reached nodes. -/
def expandOnce (nodes : List ℕ) (es : Edges) (seen : List ℕ) : List ℕ :=
  seen ++ nodes.filter
    (fun u => decide (u ∉ seen) && seen.any (fun v => hasEdge es v u))

/-- Connected component of `v`: breadth-first closure (`G.order` rounds
cover every path). -/
def componentOf (G : Graph) (v : ℕ) : List ℕ :=
  (expandOnce G.nodes G.edges)^[G.nodes.length] [v]

/-- Components in discovery order, as `networkx.connected_components`
yields them: scan the nodes in order and open a new component at every
node not yet covered. -/
def componentsList (G : Graph) : List (List ℕ) :=
  G.nodes.foldl
    (fun acc v =>
      if acc.any (fun c => decide (v ∈ c)) then acc
      else acc ++ [componentOf G v]) []

/-- Stable insertion step for the descending-by-size sort: an element moves
past exactly the strictly larger ones, so equal-sized components keep their
discovery order. -/
def insertDesc (x : List ℕ) : List (List ℕ) → List (List ℕ)
  | [] => [x]
  | y :: ys => if x.length < y.length then y :: insertDesc x ys else x :: y :: ys

/-- Model of Python's stable `sorted(Gcc, key=len, reverse=True)` in
`drawAndSave` (`net_utilities.py` line 552). -/
def sortCompsDesc (l : List (List ℕ)) : List (List ℕ) := l.foldr insertDesc []

/-- `Gcc[0]`: the first component of the sorted list, `none` when there is
no component at all (the `IndexError` raised on an empty graph). -/
def largestComponent (G : Graph) : Option (List ℕ) :=
  (sortCompsDesc (componentsList G)).head?

/-- Subgraph of `G` induced by the node set `c`. -/
def inducedSubgraph (G : Graph) (c : List ℕ) : Graph :=
  ⟨G.nodes.filter (fun u => decide (u ∈ c)),
   G.edges.filter (fun e => decide (e.1.1 ∈ c) && decide (e.1.2 ∈ c))⟩

/-- The graph `drawAndSave` goes on to draw and persist: the subgraph on
the selected component. -/
def drawAndSavePersisted (G : Graph) : Option Graph :=
  (largestComponent G).map (inducedSubgraph G)

/-- Insertion preserves the element count. -/
theorem insertDesc_length (x : List ℕ) :
    ∀ (l : List (List ℕ)), (insertDesc x l).length = l.length + 1 := by
  intro l
  induction l with
  | nil => rfl
  | cons y ys ih =>
      by_cases hc : x.length < y.length
      · simp [insertDesc, if_pos hc, ih]
      · simp [insertDesc, if_neg hc]

/-- Sorting preserves the element count. -/
theorem sortCompsDesc_length (l : List (List ℕ)) :
    (sortCompsDesc l).length = l.length := by
  induction l with
  | nil => rfl
  | cons x xs ih =>
      show (insertDesc x (sortCompsDesc xs)).length = xs.length + 1
      rw [insertDesc_length, ih]

/-- Head of the stable descending sort: it is a component of maximal size,
and every component discovered before it is strictly smaller — exactly the
"largest, ties broken by earliest discovery" selection. -/
theorem sortCompsDesc_head :
    ∀ (l : List (List ℕ)) (c : List ℕ),
      (sortCompsDesc l).head? = some c →
      ∃ pre post, l = pre ++ c :: post ∧
        (∀ d ∈ pre, d.length < c.length) ∧
        (∀ d ∈ l, d.length ≤ c.length) := by
  intro l
  induction l with
  | nil => intro c h; exact absurd h (by simp [sortCompsDesc])
  | cons x xs ih =>
      intro c h
      have hx : sortCompsDesc (x :: xs) = insertDesc x (sortCompsDesc xs) := rfl
      rcases hs : sortCompsDesc xs with _ | ⟨c', rest⟩
      · have hxs : xs = [] := by
          have hlen := sortCompsDesc_length xs
          rw [hs] at hlen
          exact List.length_eq_zero.1 hlen.symm
        rw [hx, hs] at h
        have hcx : c = x := by simpa [insertDesc] using h.symm
        subst hcx
        exact ⟨[], [], by rw [hxs]; rfl, by simp, by simp [hxs]⟩
      · obtain ⟨pre, post, hdec, hpre, hall⟩ := ih c' (by rw [hs]; rfl)
        by_cases hc : x.length < c'.length
        · rw [hx, hs] at h
          have hcc : c = c' := by simpa [insertDesc, if_pos hc] using h.symm
          subst hcc
          refine ⟨x :: pre, post, by rw [hdec]; rfl, ?_, ?_⟩
          · intro d hd
            rcases List.mem_cons.1 hd with rfl | hd
            · exact hc
            · exact hpre d hd
          · intro d hd
            rcases List.mem_cons.1 hd with rfl | hd
            · exact le_of_lt hc
            · exact hall d hd
        · rw [hx, hs] at h
          have hcx : c = x := by simpa [insertDesc, if_neg hc] using h.symm
          subst hcx
          refine ⟨[], xs, rfl, by simp, ?_⟩
          intro d hd
          rcases List.mem_cons.1 hd with rfl | hd
          · exact le_rfl
          · exact (hall d hd).trans (by omega)

/-- The component scan never empties a non-empty accumulator. -/
theorem componentsList_aux_ne_nil (G : Graph) :
    ∀ (l : List ℕ) (acc : List (List ℕ)), acc ≠ [] →
      List.foldl
        (fun acc v =>
          if acc.any (fun c => decide (v ∈ c)) then acc
          else acc ++ [componentOf G v]) acc l ≠ [] := by
  intro l
  induction l with
  | nil => intro acc h; exact h
  | cons v rest ih =>
      intro acc h
      simp only [List.foldl_cons]
      by_cases hc : acc.any (fun c => decide (v ∈ c))
      · rw [if_pos hc]; exact ih acc h
      · rw [if_neg hc]
        exact ih _ (by simp)

/-- C4: whenever `drawAndSave` selects a component (`Gcc[0]`), the persisted
graph is the subgraph induced by a component of maximal node count, and
every component discovered earlier is strictly smaller — the earliest
discovered among the largest. -/
theorem claim_C4 (G : Graph) (c : List ℕ) (h : largestComponent G = some c) :
    drawAndSavePersisted G = some (inducedSubgraph G c) ∧
    ∃ pre post,
      componentsList G = pre ++ c :: post ∧
      (∀ d ∈ pre, d.length < c.length) ∧
      (∀ d ∈ componentsList G, d.length ≤ c.length) := by
  constructor
  · simp [drawAndSavePersisted, h]
  · exact sortCompsDesc_head (componentsList G) c h

/-- Witness for C4 at a two-component graph (`{0}` and `{1, 2}`): the
two-node component is selected and persisted. -/
theorem claim_C4_witness :
    drawAndSavePersisted ⟨[0, 1, 2], [((1, 2), ⟨1, 1⟩)]⟩ =
      some (inducedSubgraph ⟨[0, 1, 2], [((1, 2), ⟨1, 1⟩)]⟩ [1, 2]) ∧
    ∃ pre post,
      componentsList ⟨[0, 1, 2], [((1, 2), ⟨1, 1⟩)]⟩ = pre ++ [1, 2] :: post ∧
      (∀ d ∈ pre, d.length < ([1, 2] : List ℕ).length) ∧
      (∀ d ∈ componentsList ⟨[0, 1, 2], [((1, 2), ⟨1, 1⟩)]⟩,
        d.length ≤ ([1, 2] : List ℕ).length) :=
  claim_C4 ⟨[0, 1, 2], [((1, 2), ⟨1, 1⟩)]⟩ [1, 2] rfl

/-- C10: on a graph with zero nodes the component list is empty and
`Gcc[0]` fails (modelled by `none`) — persistence needs at least one node;
with at least one node the selection always succeeds. -/
theorem claim_C10 (G : Graph) :
    (G.nodes = [] → drawAndSavePersisted G = none) ∧
    (G.nodes ≠ [] → (drawAndSavePersisted G).isSome) := by
  constructor
  · intro h
    simp [drawAndSavePersisted, largestComponent, componentsList,
      sortCompsDesc, h]
  · intro h
    have hcomp : componentsList G ≠ [] := by
      rcases hn : G.nodes with _ | ⟨v, rest⟩
      · exact absurd hn h
      unfold componentsList
      rw [hn]
      simp only [List.foldl_cons, List.any_nil, Bool.false_eq_true,
        if_false, List.nil_append]
      exact componentsList_aux_ne_nil G rest [componentOf G v] (by simp)
    have hsort : sortCompsDesc (componentsList G) ≠ [] := by
      intro hc
      apply hcomp
      have hlen := sortCompsDesc_length (componentsList G)
      rw [hc] at hlen
      exact List.length_eq_zero.1 hlen.symm
    rcases hres : sortCompsDesc (componentsList G) with _ | ⟨c, rest⟩
    · exact absurd hres hsort
    · simp [drawAndSavePersisted, largestComponent, hres]

/-- Witness for C10: the empty graph fails, a one-node graph succeeds. -/
theorem claim_C10_witness :
    drawAndSavePersisted ⟨[], []⟩ = none ∧
      (drawAndSavePersisted ⟨[3], []⟩).isSome :=
  ⟨(claim_C10 ⟨[], []⟩).1 rfl, (claim_C10 ⟨[3], []⟩).2 (by decide)⟩
